import Mathlib

/-!
Verification of the resumable chunked file-transfer subsystem
(`upload_server.py` server side, `onboard/uploader.py` client side).

Bytes are modelled as `List Nat`; the server's per-session directory of
`chunk_{index}.part` files is an association list from chunk index to chunk
bytes whose list order models arbitrary directory-listing order.
-/

abbrev Bytes := List Nat

/-- Server-side state of one upload session directory: the original filename
stored in `meta_filename.txt`, and the chunk part files as an association list
from index to content. -/
structure Session where
  filename : List Char
  chunks : List (Nat × Bytes)
deriving DecidableEq, Repr

/-- Server error responses. -/
inductive SrvError where
  | notFound   -- HTTP 404 "upload_id not found"
  | noChunks   -- HTTP 400 "no chunks uploaded"
deriving DecidableEq, Repr

/-- Writing `chunk_{idx}.part`: if a part file for `idx` exists its content is
replaced (open with mode "wb" truncates), otherwise a new directory entry is
appended. -/
def putPart (c : List (Nat × Bytes)) (idx : Nat) (data : Bytes) : List (Nat × Bytes) :=
  if idx ∈ c.map Prod.fst then
    c.map (fun p => if p.1 = idx then (idx, data) else p)
  else
    c ++ [(idx, data)]

/-- Server endpoint PUT /upload/id/chunk/idx: 404 when the session directory
does not exist, otherwise overwrite-or-create the part file (idempotent). -/
def upload_chunk (idx : Nat) (data : Bytes) (d : Option Session) : Except SrvError Session :=
  match d with
  | none => .error .notFound
  | some s => .ok { s with chunks := putPart s.chunks idx data }

/-- Key order used to sort chunk entries by index (`.sort(key=lambda x: x[0])`). -/
def keyLE (p q : Nat × Bytes) : Prop := p.1 ≤ q.1

instance : DecidableRel keyLE := fun p q => Nat.decLe p.1 q.1

instance : IsTotal (Nat × Bytes) keyLE := ⟨fun a b => Nat.le_total a.1 b.1⟩

instance : IsTrans (Nat × Bytes) keyLE := ⟨fun _ _ _ => Nat.le_trans⟩

/-- Sort the chunk entries in ascending index order. -/
def sortByIdx (c : List (Nat × Bytes)) : List (Nat × Bytes) :=
  c.insertionSort keyLE

/-- `uploaded.sort()` on plain index lists. -/
def sortNat (l : List Nat) : List Nat :=
  l.insertionSort (· ≤ ·)

/-- Server endpoint GET /upload/id/status: 404 when the session directory does
not exist, otherwise the sorted list of indices of the stored part files. -/
def status (d : Option Session) : Except SrvError (List Nat) :=
  match d with
  | none => .error .notFound
  | some s => .ok (sortNat (s.chunks.map Prod.fst))

/-- Client `get_uploaded_chunks`: a 404 status response is converted into the
empty list; a success response yields the reported list. (The only error the
modelled status endpoint produces is 404.) -/
def get_uploaded_chunks (d : Option Session) : List Nat :=
  match status d with
  | .error _ => []
  | .ok l => l

/-- `f.read().strip()` on the stored filename. -/
def stripChars (l : List Char) : List Char :=
  ((l.dropWhile Char.isWhitespace).reverse.dropWhile Char.isWhitespace).reverse

/-- `f.read().strip() or "assembled.bin"`. -/
def metaName (l : List Char) : List Char :=
  if stripChars l = [] then "assembled.bin".toList else stripChars l

/-- Final artifact name: `f"{upload_id}__{original_name}"`. -/
def finalName (upload_id : List Char) (s : Session) : List Char :=
  upload_id ++ "__".toList ++ metaName s.filename

/-- Content of the assembled artifact: chunk contents concatenated in
ascending index order. -/
def assembleBytes (s : Session) : Bytes :=
  ((sortByIdx s.chunks).map Prod.snd).flatten

/-- Result of a successful completion. -/
structure CompleteResult where
  final_name : List Char
  final_bytes : Bytes
deriving DecidableEq, Repr

/-- Server endpoint POST /upload/id/complete: 404 when the session directory
does not exist; 400 when it holds no chunk part files; otherwise the chunk
files are sorted by index and concatenated into the final artifact, and the
session directory is removed (state becomes `none`). -/
def complete (upload_id : List Char) (d : Option Session) :
    Except SrvError (CompleteResult × Option Session) :=
  match d with
  | none => .error .notFound
  | some s =>
    if s.chunks = [] then .error .noChunks
    else .ok ({ final_name := finalName upload_id s
              , final_bytes := assembleBytes s }, none)

/-- Client chunk count: `(file_size + chunk_size - 1) // chunk_size`. -/
def total_chunks (file_size chunk_size : Nat) : Nat :=
  (file_size + chunk_size - 1) / chunk_size

/-- Bytes of chunk `idx`: `f.seek(idx * chunk_size); f.read(chunk_size)`. -/
def fileChunk (file : Bytes) (chunk_size idx : Nat) : Bytes :=
  (file.drop (idx * chunk_size)).take chunk_size

/-- Client retry schedule `RETRY_BACKOFF = [1, 2, 5, 10]` (seconds). -/
def RETRY_BACKOFF : List Nat := [1, 2, 5, 10]

/-- One chunk's retry loop (`for attempt, backoff in enumerate(RETRY_BACKOFF, 1)`).
`outcome k` tells whether the transport of attempt number `k` delivers the
request and its response; a delivered request whose server answer is an HTTP
error (e.g. 404) still raises in the client via `raise_for_status`, so it
counts as a failed attempt.  Arguments: remaining backoff schedule, number of
attempts made so far.  Returns the server state on success (`some`), the total
number of attempts made, and the list of backoff delays slept. -/
def retryPut (outcome : Nat → Bool) (d : Option Session) (idx : Nat) (data : Bytes) :
    List Nat → Nat → Option Session × Nat × List Nat
  | [], n => (none, n, [])
  | b :: rest, n =>
    match (if outcome (n + 1) then (upload_chunk idx data d).toOption else none) with
    | some s' => (some s', n + 1, [])
    | none =>
      let r := retryPut outcome d idx data rest (n + 1)
      (r.1, r.2.1, b :: r.2.2)

/-- The chunk loop of `run_upload` (without the `max_chunks` demo cap): for each
index in order, skip it when already uploaded; stop normally when the read
chunk is empty (EOF); otherwise retry-upload it, aborting the whole run at the
first index whose retries are exhausted.  Returns the final server state, the
list of indices newly uploaded this run in order, and `some idx` when the run
returned early because index `idx` failed terminally. -/
def uploadLoopF (file : Bytes) (cs : Nat) (outcome : Nat → Nat → Bool) (uploaded : List Nat) :
    List Nat → Option Session → Option Session × List Nat × Option Nat
  | [], d => (d, [], none)
  | idx :: rest, d =>
    if idx ∈ uploaded then uploadLoopF file cs outcome uploaded rest d
    else
      let data := fileChunk file cs idx
      if data = [] then (d, [], none)
      else
        match retryPut (outcome idx) d idx data RETRY_BACKOFF 0 with
        | (some d', _, _) =>
          let r := uploadLoopF file cs outcome uploaded rest (some d')
          (r.1, idx :: r.2.1, r.2.2)
        | (none, _, _) => (d, [], some idx)

/-- The transfer phase of `run_upload`: query the server for the accepted
indices (a 404 becomes the empty set), then run the chunk loop over
`range(total_chunks)`. -/
def run_upload_loop (file : Bytes) (cs : Nat) (outcome : Nat → Nat → Bool)
    (d : Option Session) : Option Session × List Nat × Option Nat :=
  uploadLoopF file cs outcome (get_uploaded_chunks d)
    (List.range (total_chunks file.length cs)) d

/-- Client progress record persisted next to the source file
(`.uploadmeta.json`). -/
structure Meta where
  upload_id : List Char
  chunk_size : Nat
  file_size : Nat
  filename : List Char
  file_md5 : List Char
deriving DecidableEq, Repr

/-- Which session a run uses and what it did to the old record. -/
structure SessionChoice where
  upload_id : List Char
  chunk_size : Nat
  removed_old : Bool  -- whether os.remove(meta_path) ran (stale record dropped)
  initiated : Bool    -- whether a new session was initiated on the server
deriving DecidableEq, Repr

/-- The fresh-vs-resume decision at the top of `run_upload`: a loaded record
whose stored checksum differs from the current file checksum is removed and
treated as absent; with no (usable) record the run initiates a new session
(`srv_upload_id`, `srv_chunk_size` are the server's response), otherwise it
resumes the recorded session. -/
def chooseSession (meta0 : Option Meta) (file_md5 : List Char)
    (srv_upload_id : List Char) (srv_chunk_size : Nat) : SessionChoice :=
  let stale : Bool := match meta0 with
    | some m => decide (m.file_md5 ≠ file_md5)
    | none => false
  if stale then
    { upload_id := srv_upload_id, chunk_size := srv_chunk_size
    , removed_old := true, initiated := true }
  else
    match meta0 with
    | none =>
      { upload_id := srv_upload_id, chunk_size := srv_chunk_size
      , removed_old := false, initiated := true }
    | some m =>
      { upload_id := m.upload_id, chunk_size := m.chunk_size
      , removed_old := false, initiated := false }

/-- Server endpoint POST /upload/initiate: creates an empty session directory
and stores the original filename. -/
def initiateSession (filename : List Char) : Session :=
  { filename := filename, chunks := [] }

/-- What the local progress file can look like when read. -/
inductive MetaFile where
  | absent
  | corrupt
  | valid (m : Meta)
deriving DecidableEq

/-- Client `load_meta`: `none` when the progress file does not exist; otherwise
`json.load` — which raises on undecodable content, and that exception is not
caught (modelled as `Except.error ()`). -/
def load_meta : MetaFile → Except Unit (Option Meta)
  | .absent => .ok none
  | .corrupt => .error ()
  | .valid m => .ok (some m)

/-- Modelled from the spec: the `load` contract of §4.1 ClientProgress, under
which a decode failure is treated the same as an absent record (fresh start,
never fatal).  Stated here only to compare against `load_meta` above. -/
def load_spec : MetaFile → Option Meta
  | .absent => none
  | .corrupt => none
  | .valid m => some m

/-- The start of `run_upload` as far as the session decision: load the progress
record (line 89, unprotected — a decode exception propagates), then decide
fresh-vs-resume. -/
def runMetaPhase (mf : MetaFile) (file_md5 : List Char)
    (srv_upload_id : List Char) (srv_chunk_size : Nat) : Except Unit SessionChoice := do
  let meta0 ← load_meta mf
  pure (chooseSession meta0 file_md5 srv_upload_id srv_chunk_size)

/-- The assembly write loop of `complete`: `open(final_path, "wb")` at the
final artifact path itself, then copy each sorted chunk in turn.  `failAfter`
= `some k` models an I/O failure after `k` whole chunk copies succeeded
(`none` = no failure).  Returns the bytes observable at the final artifact
path afterwards (`some` iff a file exists there) and whether assembly
succeeded. -/
def assembleWrite (s : Session) (failAfter : Option Nat) : Option Bytes × Bool :=
  let parts := (sortByIdx s.chunks).map Prod.snd
  match failAfter with
  | none => (some parts.flatten, true)
  | some k =>
    if k < parts.length then (some ((parts.take k).flatten), false)
    else (some parts.flatten, true)

/-! ### Helper lemmas: the part-file store -/

theorem putPart_of_mem {c : List (Nat × Bytes)} {idx : Nat} {data : Bytes}
    (h : idx ∈ c.map Prod.fst) :
    putPart c idx data = c.map (fun p => if p.1 = idx then (idx, data) else p) := by
  unfold putPart
  rw [if_pos h]

theorem putPart_of_not_mem {c : List (Nat × Bytes)} {idx : Nat} {data : Bytes}
    (h : idx ∉ c.map Prod.fst) :
    putPart c idx data = c ++ [(idx, data)] := by
  unfold putPart
  rw [if_neg h]

theorem putPart_fst_of_mem {c : List (Nat × Bytes)} {idx : Nat} (data : Bytes)
    (h : idx ∈ c.map Prod.fst) :
    (putPart c idx data).map Prod.fst = c.map Prod.fst := by
  rw [putPart_of_mem h, List.map_map]
  refine List.map_congr_left ?_
  intro p _
  by_cases hp : p.1 = idx <;> simp [hp]

theorem putPart_fst_of_not_mem {c : List (Nat × Bytes)} {idx : Nat} (data : Bytes)
    (h : idx ∉ c.map Prod.fst) :
    (putPart c idx data).map Prod.fst = c.map Prod.fst ++ [idx] := by
  rw [putPart_of_not_mem h]
  simp

theorem putPart_fst_mem {c : List (Nat × Bytes)} {idx : Nat} (data : Bytes) (i : Nat) :
    i ∈ (putPart c idx data).map Prod.fst ↔ i ∈ c.map Prod.fst ∨ i = idx := by
  by_cases h : idx ∈ c.map Prod.fst
  · rw [putPart_fst_of_mem data h]
    constructor
    · exact Or.inl
    · rintro (hi | rfl) <;> assumption
  · rw [putPart_fst_of_not_mem data h]
    simp

theorem putPart_fst_nodup {c : List (Nat × Bytes)} {idx : Nat} (data : Bytes)
    (h : (c.map Prod.fst).Nodup) :
    ((putPart c idx data).map Prod.fst).Nodup := by
  by_cases hm : idx ∈ c.map Prod.fst
  · rw [putPart_fst_of_mem data hm]; exact h
  · rw [putPart_fst_of_not_mem data hm]
    refine h.append (List.nodup_singleton idx) ?_
    intro a ha hb
    rw [List.mem_singleton] at hb
    subst hb
    exact hm ha

theorem putPart_mem {c : List (Nat × Bytes)} {idx : Nat} {data : Bytes} {p : Nat × Bytes}
    (hp : p ∈ putPart c idx data) : p ∈ c ∨ p = (idx, data) := by
  by_cases hm : idx ∈ c.map Prod.fst
  · rw [putPart_of_mem hm] at hp
    obtain ⟨q, hq, hfq⟩ := List.mem_map.mp hp
    by_cases hq1 : q.1 = idx
    · right
      rw [← hfq, if_pos hq1]
    · left
      rw [← hfq, if_neg hq1]
      exact hq
  · rw [putPart_of_not_mem hm] at hp
    simpa using hp

theorem putPart_idem (c : List (Nat × Bytes)) (idx : Nat) (data : Bytes) :
    putPart (putPart c idx data) idx data = putPart c idx data := by
  have hmem : idx ∈ (putPart c idx data).map Prod.fst :=
    (putPart_fst_mem data idx).mpr (Or.inr rfl)
  rw [putPart_of_mem hmem]
  by_cases h : idx ∈ c.map Prod.fst
  · rw [putPart_of_mem h, List.map_map]
    refine List.map_congr_left ?_
    intro p _
    by_cases hp : p.1 = idx <;> simp [hp]
  · rw [putPart_of_not_mem h, List.map_append]
    congr 1
    · have hid : c.map (fun p => if p.1 = idx then (idx, data) else p) = c.map id := by
        refine List.map_congr_left ?_
        intro p hp
        have hne : p.1 ≠ idx := fun e => h (List.mem_map.mpr ⟨p, hp, e⟩)
        simp [hne]
      rw [hid, List.map_id]
    · simp

/-! ### Helper lemmas: sorting chunk entries -/

theorem sortByIdx_perm (c : List (Nat × Bytes)) : List.Perm (sortByIdx c) c :=
  List.perm_insertionSort keyLE c

theorem sortNat_mem (l : List Nat) (i : Nat) : i ∈ sortNat l ↔ i ∈ l :=
  List.mem_insertionSort (· ≤ ·)

/-- An association list whose keys are exactly `0..n-1` (without duplicates)
and whose value at each key `i` is `g i` sorts to the canonical table of `g`
on `0..n-1`. -/
theorem sortByIdx_eq_range_map (n : Nat) (g : Nat → Bytes) (c : List (Nat × Bytes))
    (hmem : ∀ i, i ∈ c.map Prod.fst ↔ i < n)
    (hnd : (c.map Prod.fst).Nodup)
    (hval : ∀ p ∈ c, p.2 = g p.1) :
    sortByIdx c = (List.range n).map (fun i => (i, g i)) := by
  have hperm : List.Perm (sortByIdx c) c := sortByIdx_perm c
  have hkeys : List.Perm ((sortByIdx c).map Prod.fst) (List.range n) := by
    refine (List.perm_ext_iff_of_nodup ?_ (List.nodup_range n)).mpr ?_
    · exact ((hperm.map Prod.fst).nodup_iff).mpr hnd
    · intro i
      rw [(hperm.map Prod.fst).mem_iff, hmem i, List.mem_range]
  have hsorted : List.Sorted (· ≤ ·) ((sortByIdx c).map Prod.fst) := by
    have := List.sorted_insertionSort keyLE c
    exact List.pairwise_map.mpr this
  have hfst : (sortByIdx c).map Prod.fst = List.range n :=
    List.eq_of_perm_of_sorted hkeys hsorted (List.sorted_le_range n)
  have hlen : (sortByIdx c).length = n := by
    have := congrArg List.length hfst
    simpa using this
  refine List.ext_getElem (by simpa using hlen) ?_
  intro i h1 h2
  have hi : i < n := by simpa [hlen] using h1
  have hmap : i < ((sortByIdx c).map Prod.fst).length := by
    simpa [hlen] using hi
  have hfsti : (sortByIdx c)[i].1 = i := by
    have : ((sortByIdx c).map Prod.fst)[i] = i := by
      simp [hfst]
    simpa using this
  have hmem' : (sortByIdx c)[i] ∈ c := hperm.subset (List.getElem_mem h1)
  have hsnd : (sortByIdx c)[i].2 = g i := by
    rw [hval _ hmem', hfsti]
  have : (sortByIdx c)[i] = (i, g i) := Prod.ext hfsti hsnd
  simpa using this

/-! ### Helper lemmas: chunk arithmetic -/

theorem total_chunks_le {len cs idx : Nat} (hcs : 0 < cs) (h : len ≤ idx * cs) :
    total_chunks len cs ≤ idx := by
  unfold total_chunks
  rw [Nat.div_le_iff_le_mul_add_pred hcs, Nat.mul_comm]
  omega

theorem mul_lt_of_lt_total {len cs idx : Nat} (hcs : 0 < cs)
    (h : idx < total_chunks len cs) : idx * cs < len := by
  by_contra hc
  push_neg at hc
  have h2 : total_chunks len cs ≤ idx := total_chunks_le hcs hc
  omega

theorem total_chunks_pos {len cs : Nat} (hcs : 0 < cs) (hlen : 0 < len) :
    0 < total_chunks len cs := by
  unfold total_chunks
  rw [Nat.lt_iff_add_one_le, Nat.one_le_div_iff hcs]
  omega

theorem total_chunks_one {len cs : Nat} (h1 : 0 < len) (h2 : len ≤ cs) :
    total_chunks len cs = 1 := by
  have hcs : 0 < cs := Nat.lt_of_lt_of_le h1 h2
  refine Nat.le_antisymm ?_ (total_chunks_pos hcs h1)
  unfold total_chunks
  rw [Nat.div_le_iff_le_mul_add_pred hcs]
  omega

theorem fileChunk_ne_nil {file : Bytes} {cs idx : Nat} (hcs : 0 < cs)
    (h : idx < total_chunks file.length cs) : fileChunk file cs idx ≠ [] := by
  have hlt : idx * cs < file.length := mul_lt_of_lt_total hcs h
  intro hnil
  have := congrArg List.length hnil
  simp only [fileChunk, List.length_take, List.length_drop, List.length_nil] at this
  omega

/-! ### Helper lemmas: the retry loop -/

theorem retryPut_first_try (oc : Nat → Bool) (s : Session) (idx : Nat) (data : Bytes)
    (b : Nat) (bs : List Nat) (n : Nat) (hoc : oc (n + 1) = true) :
    retryPut oc (some s) idx data (b :: bs) n
      = (some { s with chunks := putPart s.chunks idx data }, n + 1, []) := by
  simp [retryPut, hoc, upload_chunk, Except.toOption]

theorem retryPut_none_state (oc : Nat → Bool) (idx : Nat) (data : Bytes) :
    ∀ (bs : List Nat) (n : Nat),
      retryPut oc none idx data bs n = (none, n + bs.length, bs) := by
  intro bs
  induction bs with
  | nil => intro n; simp [retryPut]
  | cons b rest ih =>
    intro n
    have hnone : (if oc (n + 1) then (upload_chunk idx data none).toOption else none)
        = (none : Option Session) := by
      by_cases h : oc (n + 1) <;> simp [h, upload_chunk, Except.toOption]
    simp only [retryPut, hnone]
    rw [ih (n + 1)]
    simp
    omega

theorem retryPut_all_fail (oc : Nat → Bool) (d : Option Session) (idx : Nat) (data : Bytes)
    (hoc : ∀ k, oc k = false) :
    ∀ (bs : List Nat) (n : Nat),
      retryPut oc d idx data bs n = (none, n + bs.length, bs) := by
  intro bs
  induction bs with
  | nil => intro n; simp [retryPut]
  | cons b rest ih =>
    intro n
    simp only [retryPut, hoc (n + 1), if_false]
    rw [ih (n + 1)]
    simp
    omega

theorem retryPut_attempts_le (oc : Nat → Bool) (d : Option Session) (idx : Nat) (data : Bytes) :
    ∀ (bs : List Nat) (n : Nat),
      (retryPut oc d idx data bs n).2.1 ≤ n + bs.length := by
  intro bs
  induction bs with
  | nil => intro n; simp [retryPut]
  | cons b rest ih =>
    intro n
    simp only [retryPut]
    cases hx : (if oc (n + 1) then (upload_chunk idx data d).toOption else none) with
    | some s' => simp
    | none =>
      have := ih (n + 1)
      simp only [List.length_cons]
      omega

/-! ### Helper lemmas: the chunk loop under a reliable transport -/

/-- Characterization of the chunk loop when every transport attempt succeeds
and no index hits EOF: the loop finishes, sends exactly the indices not in
`uploaded`, preserves the session filename, writes only correct chunk
contents, and adds exactly the sent indices to the stored key set. -/
theorem uploadLoopF_ok (file : Bytes) (cs : Nat) (U : List Nat) :
    ∀ (ixs : List Nat) (s : Session),
      (∀ i ∈ ixs, fileChunk file cs i ≠ []) →
      ∃ s' : Session,
        uploadLoopF file cs (fun _ _ => true) U ixs (some s)
          = (some s', ixs.filter (fun i => decide (i ∉ U)), none) ∧
        s'.filename = s.filename ∧
        (∀ p ∈ s'.chunks, p ∈ s.chunks ∨ (p.1 ∈ ixs ∧ p.2 = fileChunk file cs p.1)) ∧
        (∀ i, i ∈ s'.chunks.map Prod.fst
           ↔ i ∈ s.chunks.map Prod.fst ∨ (i ∈ ixs ∧ i ∉ U)) ∧
        ((s.chunks.map Prod.fst).Nodup → (s'.chunks.map Prod.fst).Nodup) := by
  intro ixs
  induction ixs with
  | nil =>
    intro s _
    refine ⟨s, ?_, rfl, ?_, ?_, fun h => h⟩
    · simp [uploadLoopF]
    · intro p hp; exact Or.inl hp
    · intro i; simp
  | cons idx rest ih =>
    intro s hch
    have hchr : ∀ i ∈ rest, fileChunk file cs i ≠ [] :=
      fun i hi => hch i (List.mem_cons_of_mem idx hi)
    by_cases hU : idx ∈ U
    · obtain ⟨s', heq, hfn, hvals, hkeys, hnd⟩ := ih s hchr
      refine ⟨s', ?_, hfn, ?_, ?_, hnd⟩
      · have hdec : decide (idx ∉ U) = false := by simp [hU]
        simp only [uploadLoopF, if_pos hU, heq, List.filter_cons, hdec]
        simp
      · intro p hp
        rcases hvals p hp with h | ⟨h1, h2⟩
        · exact Or.inl h
        · exact Or.inr ⟨List.mem_cons_of_mem idx h1, h2⟩
      · intro i
        rw [hkeys i]
        constructor
        · rintro (h | ⟨h1, h2⟩)
          · exact Or.inl h
          · exact Or.inr ⟨List.mem_cons_of_mem idx h1, h2⟩
        · rintro (h | ⟨h1, h2⟩)
          · exact Or.inl h
          · rcases List.mem_cons.mp h1 with rfl | h1
            · exact absurd hU h2
            · exact Or.inr ⟨h1, h2⟩
    · have hdata : fileChunk file cs idx ≠ [] := hch idx (List.mem_cons_self idx rest)
      set s₁ : Session := { s with chunks := putPart s.chunks idx (fileChunk file cs idx) }
        with hs₁
      obtain ⟨s', heq, hfn, hvals, hkeys, hnd⟩ := ih s₁ hchr
      refine ⟨s', ?_, by rw [hfn], ?_, ?_, ?_⟩
      · have hrp : retryPut (fun _ => true) (some s) idx (fileChunk file cs idx) RETRY_BACKOFF 0
            = (some s₁, 1, []) := by
          rw [show RETRY_BACKOFF = 1 :: [2, 5, 10] from rfl]
          exact retryPut_first_try (fun _ => true) s idx (fileChunk file cs idx) 1 [2, 5, 10] 0 rfl
        have hdec : decide (idx ∉ U) = true := by simp [hU]
        simp only [uploadLoopF, if_neg hU, if_neg hdata, hrp, heq, List.filter_cons, hdec]
        simp
      · intro p hp
        rcases hvals p hp with h | ⟨h1, h2⟩
        · rcases putPart_mem h with h' | rfl
          · exact Or.inl h'
          · exact Or.inr ⟨List.mem_cons.mpr (Or.inl rfl), rfl⟩
        · exact Or.inr ⟨List.mem_cons_of_mem idx h1, h2⟩
      · intro i
        rw [hkeys i]
        have hput : i ∈ s₁.chunks.map Prod.fst ↔ i ∈ s.chunks.map Prod.fst ∨ i = idx :=
          putPart_fst_mem (fileChunk file cs idx) i
        rw [hput]
        constructor
        · rintro ((h | rfl) | ⟨h1, h2⟩)
          · exact Or.inl h
          · exact Or.inr ⟨List.mem_cons.mpr (Or.inl rfl), hU⟩
          · exact Or.inr ⟨List.mem_cons_of_mem idx h1, h2⟩
        · rintro (h | ⟨h1, h2⟩)
          · exact Or.inl (Or.inl h)
          · rcases List.mem_cons.mp h1 with rfl | h1
            · exact Or.inl (Or.inr rfl)
            · exact Or.inr ⟨h1, h2⟩
      · intro h
        exact hnd (putPart_fst_nodup (fileChunk file cs idx) h)

/-- A reliable-transport run against an existing session whose stored chunks
are a correct subset of the file's chunks finishes the session: it sends
exactly the indices the server did not report, and afterwards the stored
chunks sort to the canonical table of the file's chunks. -/
theorem run_upload_loop_ok (file : Bytes) (cs : Nat) (s : Session)
    (hcs : 0 < cs)
    (hkeys : ∀ i ∈ s.chunks.map Prod.fst, i < total_chunks file.length cs)
    (hnd : (s.chunks.map Prod.fst).Nodup)
    (hval : ∀ p ∈ s.chunks, p.2 = fileChunk file cs p.1) :
    ∃ s' : Session,
      run_upload_loop file cs (fun _ _ => true) (some s)
        = (some s',
           (List.range (total_chunks file.length cs)).filter
             (fun i => decide (i ∉ s.chunks.map Prod.fst)), none) ∧
      s'.filename = s.filename ∧
      sortByIdx s'.chunks
        = (List.range (total_chunks file.length cs)).map
            (fun i => (i, fileChunk file cs i)) := by
  set n := total_chunks file.length cs with hn
  have hch : ∀ i ∈ List.range n, fileChunk file cs i ≠ [] := by
    intro i hi
    exact fileChunk_ne_nil hcs (List.mem_range.mp hi)
  have hUmem : ∀ i, i ∈ get_uploaded_chunks (some s) ↔ i ∈ s.chunks.map Prod.fst := by
    intro i
    exact sortNat_mem (s.chunks.map Prod.fst) i
  obtain ⟨s', heq, hfn, hvals, hkeys', hnd'⟩ :=
    uploadLoopF_ok file cs (get_uploaded_chunks (some s)) (List.range n) s hch
  refine ⟨s', ?_, hfn, ?_⟩
  · have hfil : List.filter (fun i => decide (i ∉ get_uploaded_chunks (some s)))
        (List.range n)
        = List.filter (fun i => decide (i ∉ s.chunks.map Prod.fst)) (List.range n) := by
      refine List.filter_congr ?_
      intro i _
      simp [hUmem i]
    rw [run_upload_loop, heq, hfil]
  · refine sortByIdx_eq_range_map n (fileChunk file cs) s'.chunks ?_ (hnd' hnd) ?_
    · intro i
      rw [hkeys' i]
      constructor
      · rintro (h | ⟨h1, _⟩)
        · exact hkeys i h
        · exact List.mem_range.mp h1
      · intro hi
        by_cases hm : i ∈ s.chunks.map Prod.fst
        · exact Or.inl hm
        · exact Or.inr ⟨List.mem_range.mpr hi, fun hc => hm ((hUmem i).mp hc)⟩
    · intro p hp
      rcases hvals p hp with h | ⟨_, h2⟩
      · exact hval p h
      · exact h2

/-! ### Claims -/

/-- Claim C1 counterexample: with total_chunks = 2 (2-byte file, 1-byte chunks) and
only index 1 stored (index 0 has no accepted chunk), the completion request
nonetheless succeeds — the server never checks coverage of [0, total_chunks). -/
theorem complete_gap_succeeds_cex :
    total_chunks 2 1 = 2 ∧
    complete "u".toList (some ⟨"f".toList, [(1, [7])]⟩)
      = .ok ({ final_name := "u__f".toList, final_bytes := [7] }, none) :=
  ⟨by decide, rfl⟩

/-- Claim C1 amended: a completion request on an existing session fails precisely
when the session has no stored chunks at all ("no chunks uploaded"); whenever
at least one chunk is stored, completion succeeds regardless of gaps in
[0, total_chunks). -/
theorem complete_fails_iff_no_chunks (uid : List Char) (s : Session) :
    (∃ e, complete uid (some s) = .error e) ↔ s.chunks = [] := by
  unfold complete
  by_cases h : s.chunks = []
  · simp [h]
  · simp [h]

/-- Claim C3: submitting the same (session, index, bytes) chunk write twice leaves
exactly the state a single submission leaves — the second write overwrites
with identical content — so every later completion produces the same final
artifact in both cases. -/
theorem upload_chunk_idempotent (s : Session) (idx : Nat) (data : Bytes) :
    ∃ s₁, upload_chunk idx data (some s) = .ok s₁ ∧
      upload_chunk idx data (some s₁) = .ok s₁ := by
  refine ⟨{ s with chunks := putPart s.chunks idx data }, rfl, ?_⟩
  simp only [upload_chunk, putPart_idem]

/-- Claim C4: when the stored indices are exactly 0..n-1 with contents `g`, a
completion request succeeds and produces the byte-exact concatenation
`g 0 ++ g 1 ++ ... ++ g (n-1)` under the name `upload_id ++ "__" ++ filename`;
and two sessions with distinct ids of equal length (ids are fixed-width
UUID strings) can never produce colliding artifact names. -/
theorem complete_full_coverage
    (uid : List Char) (s : Session) (n : Nat) (g : Nat → Bytes)
    (hn : 0 < n)
    (hperm : List.Perm (s.chunks.map Prod.fst) (List.range n))
    (hval : ∀ p ∈ s.chunks, p.2 = g p.1) :
    complete uid (some s)
      = .ok ({ final_name := finalName uid s
             , final_bytes := ((List.range n).map g).flatten }, none) ∧
    (∀ uid₂ s₂, uid₂.length = uid.length → uid₂ ≠ uid →
      finalName uid₂ s₂ ≠ finalName uid s) := by
  constructor
  · have hmem : ∀ i, i ∈ s.chunks.map Prod.fst ↔ i < n := by
      intro i
      rw [hperm.mem_iff, List.mem_range]
    have hnd : (s.chunks.map Prod.fst).Nodup :=
      hperm.nodup_iff.mpr (List.nodup_range n)
    have hsort : sortByIdx s.chunks = (List.range n).map (fun i => (i, g i)) :=
      sortByIdx_eq_range_map n g s.chunks hmem hnd hval
    have hne : s.chunks ≠ [] := by
      intro hc
      have : (0 : Nat) ∈ s.chunks.map Prod.fst := (hmem 0).mpr hn
      rw [hc] at this
      simp at this
    have hby : assembleBytes s = ((List.range n).map g).flatten := by
      unfold assembleBytes
      rw [hsort, List.map_map]
      rfl
    simp only [complete, if_neg hne, hby]
  · intro uid₂ s₂ hlen hne hcoll
    unfold finalName at hcoll
    rw [List.append_assoc, List.append_assoc] at hcoll
    exact hne ((List.append_inj hcoll hlen).1)

/-- Claim C4 witness: concrete instance with two out-of-order chunks, plus a
concrete distinct equal-length session id yielding a distinct artifact name. -/
theorem complete_full_coverage_witness :
    complete "ab".toList (some ⟨"f".toList, [(1, [9]), (0, [5])]⟩)
      = .ok ({ final_name := finalName "ab".toList ⟨"f".toList, [(1, [9]), (0, [5])]⟩
             , final_bytes := ((List.range 2).map
                 (fun i => if i = 0 then [5] else [9])).flatten }, none) ∧
    finalName "cd".toList ⟨"g".toList, []⟩
      ≠ finalName "ab".toList ⟨"f".toList, [(1, [9]), (0, [5])]⟩ := by
  have h := complete_full_coverage "ab".toList ⟨"f".toList, [(1, [9]), (0, [5])]⟩ 2
    (fun i => if i = 0 then [5] else [9]) (by decide) (by decide) (by decide)
  exact ⟨h.1, h.2 "cd".toList ⟨"g".toList, []⟩ (by decide) (by decide)⟩

/-- Claim C2: resuming a session holding a correct strict subset of the chunks, the
client takes the server-reported accepted set, uploads exactly the missing
indices, and the assembled artifact — and the whole completion response — is
byte-identical to that of a single uninterrupted run from a fresh session. -/
theorem resumed_run_byte_identical
    (file : Bytes) (cs : Nat) (fn uid : List Char) (s : Session)
    (hcs : 0 < cs)
    (hfn : s.filename = fn)
    (hkeys : ∀ i ∈ s.chunks.map Prod.fst, i < total_chunks file.length cs)
    (hnd : (s.chunks.map Prod.fst).Nodup)
    (hval : ∀ p ∈ s.chunks, p.2 = fileChunk file cs p.1)
    (hstrict : ∃ j, j < total_chunks file.length cs ∧ j ∉ s.chunks.map Prod.fst) :
    ∃ dR dF : Session,
      run_upload_loop file cs (fun _ _ => true) (some s)
        = (some dR,
           (List.range (total_chunks file.length cs)).filter
             (fun i => decide (i ∉ s.chunks.map Prod.fst)), none) ∧
      run_upload_loop file cs (fun _ _ => true) (some (initiateSession fn))
        = (some dF, List.range (total_chunks file.length cs), none) ∧
      assembleBytes dR = assembleBytes dF ∧
      complete uid (some dR) = complete uid (some dF) := by
  obtain ⟨dR, heqR, hfnR, hsortR⟩ := run_upload_loop_ok file cs s hcs hkeys hnd hval
  obtain ⟨dF, heqF, hfnF, hsortF⟩ := run_upload_loop_ok file cs (initiateSession fn) hcs
    (by intro i hi; simp [initiateSession] at hi) (by simp [initiateSession])
    (by intro p hp; simp [initiateSession] at hp)
  have hfilF : (List.range (total_chunks file.length cs)).filter
      (fun i => decide (i ∉ (initiateSession fn).chunks.map Prod.fst))
      = List.range (total_chunks file.length cs) := by
    refine List.filter_eq_self.mpr ?_
    intro i _
    simp [initiateSession]
  rw [hfilF] at heqF
  have hbytes : assembleBytes dR = assembleBytes dF := by
    unfold assembleBytes
    rw [hsortR, hsortF]
  refine ⟨dR, dF, heqR, heqF, hbytes, ?_⟩
  obtain ⟨j, hj, hjm⟩ := hstrict
  have hnpos : 0 < total_chunks file.length cs := by omega
  have hchR : dR.chunks ≠ [] := by
    intro hc
    have := congrArg List.length hsortR
    rw [hc] at this
    simp [sortByIdx] at this
    omega
  have hchF : dF.chunks ≠ [] := by
    intro hc
    have := congrArg List.length hsortF
    rw [hc] at this
    simp [sortByIdx] at this
    omega
  have hfneq : dR.filename = dF.filename := by
    rw [hfnR, hfnF, hfn]
    rfl
  simp only [complete, if_neg hchR, if_neg hchF]
  rw [hbytes]
  unfold finalName
  rw [hfneq]

/-- Claim C2 witness: 3-byte file in 2-byte chunks (2 chunks total), with chunk 0
already accepted; the resumed run sends exactly index 1 and both runs complete
to identical artifacts. -/
theorem resumed_run_byte_identical_witness :
    ∃ dR dF : Session,
      run_upload_loop [10, 20, 30] 2 (fun _ _ => true)
          (some ⟨"f".toList, [(0, [10, 20])]⟩)
        = (some dR,
           (List.range (total_chunks 3 2)).filter
             (fun i => decide (i ∉ ([(0, [10, 20])] : List (Nat × Bytes)).map Prod.fst)),
           none) ∧
      run_upload_loop [10, 20, 30] 2 (fun _ _ => true) (some (initiateSession "f".toList))
        = (some dF, List.range (total_chunks 3 2), none) ∧
      assembleBytes dR = assembleBytes dF ∧
      complete "u".toList (some dR) = complete "u".toList (some dF) :=
  resumed_run_byte_identical [10, 20, 30] 2 "f".toList "u".toList
    ⟨"f".toList, [(0, [10, 20])]⟩ (by decide) rfl (by decide) (by decide) (by decide)
    ⟨1, by decide⟩

/-- Claim C5: when the stored checksum of the progress record differs from the file's
current checksum, the run removes the record and initiates a brand-new session
(the server-issued fresh id, which differs from the old one), never reusing the
old session id; the fresh session starts with no chunks, so chunks of the two
file versions are never mixed. -/
theorem stale_meta_new_session
    (m : Meta) (md5 sid fn : List Char) (scs : Nat)
    (hm : m.file_md5 ≠ md5) (hfresh : sid ≠ m.upload_id) :
    chooseSession (some m) md5 sid scs
      = { upload_id := sid, chunk_size := scs, removed_old := true, initiated := true } ∧
    (chooseSession (some m) md5 sid scs).upload_id ≠ m.upload_id ∧
    (initiateSession fn).chunks = [] := by
  have hc : chooseSession (some m) md5 sid scs
      = { upload_id := sid, chunk_size := scs, removed_old := true, initiated := true } := by
    simp [chooseSession, hm]
  exact ⟨hc, by rw [hc]; exact hfresh, rfl⟩

/-- Claim C5 witness: concrete stale record; the run switches to the fresh id. -/
theorem stale_meta_new_session_witness :
    chooseSession (some ⟨"old".toList, 4, 9, "f".toList, "aaa".toList⟩)
        "bbb".toList "new".toList 7
      = { upload_id := "new".toList, chunk_size := 7
        , removed_old := true, initiated := true } ∧
    (chooseSession (some ⟨"old".toList, 4, 9, "f".toList, "aaa".toList⟩)
        "bbb".toList "new".toList 7).upload_id ≠ "old".toList ∧
    (initiateSession "f".toList).chunks = [] :=
  stale_meta_new_session ⟨"old".toList, 4, 9, "f".toList, "aaa".toList⟩
    "bbb".toList "new".toList "f".toList 7 (by decide) (by decide)

/-- Claim C6 counterexample: for a zero-byte file the client computes
total_chunks = 0 (not the claimed minimum of 1), the chunk loop runs zero
iterations sending nothing, and the completion request fails with
"no chunks uploaded". -/
theorem zero_byte_file_cex :
    total_chunks 0 (10 * 1024 * 1024) = 0 ∧
    run_upload_loop [] (10 * 1024 * 1024) (fun _ _ => true)
        (some (initiateSession "f".toList))
      = (some (initiateSession "f".toList), [], none) ∧
    complete "u".toList (some (initiateSession "f".toList)) = .error .noChunks :=
  ⟨by decide, rfl, rfl⟩

/-- Claim C6 amended: total_chunks is the plain ceiling with no minimum-1 clamp: a
zero-byte file yields total_chunks = 0 (its run uploads nothing and completion
fails), while a nonempty file of at most one chunk size yields total_chunks = 1
and a run uploads the single chunk and completes successfully to the file
itself. -/
theorem small_file_single_chunk
    (file : Bytes) (cs : Nat) (fn uid : List Char)
    (hne : file ≠ []) (hle : file.length ≤ cs) :
    total_chunks file.length cs = 1 ∧
    total_chunks 0 cs = 0 ∧
    run_upload_loop file cs (fun _ _ => true) (some (initiateSession fn))
      = (some ⟨fn, [(0, file)]⟩, [0], none) ∧
    complete uid (some ⟨fn, [(0, file)]⟩)
      = .ok ({ final_name := finalName uid ⟨fn, [(0, file)]⟩
             , final_bytes := file }, none) := by
  have hlen : 0 < file.length := List.length_pos.mpr hne
  have hcs : 0 < cs := Nat.lt_of_lt_of_le hlen hle
  have h1 : total_chunks file.length cs = 1 := total_chunks_one hlen hle
  have h0 : total_chunks 0 cs = 0 := by
    unfold total_chunks
    rw [Nat.zero_add]
    exact Nat.div_eq_of_lt (by omega)
  have hchunk0 : fileChunk file cs 0 = file := by
    unfold fileChunk
    rw [Nat.zero_mul, List.drop_zero]
    exact List.take_of_length_le hle
  refine ⟨h1, h0, ?_, ?_⟩
  · have hrp : retryPut (fun _ => true) (some (initiateSession fn)) 0 file RETRY_BACKOFF 0
        = (some ⟨fn, [(0, file)]⟩, 1, []) := by
      rw [show RETRY_BACKOFF = 1 :: [2, 5, 10] from rfl]
      have := retryPut_first_try (fun _ => true) (initiateSession fn) 0 file 1 [2, 5, 10] 0 rfl
      rw [this]
      rfl
    rw [run_upload_loop, h1]
    have hU : get_uploaded_chunks (some (initiateSession fn)) = [] := rfl
    rw [hU]
    have hrange : List.range 1 = [0] := rfl
    rw [hrange]
    simp only [uploadLoopF, List.not_mem_nil, if_neg (fun h => h), hchunk0,
      if_neg hne, hrp]
  · have hne' : ([(0, file)] : List (Nat × Bytes)) ≠ [] := by simp
    have hby : assembleBytes ⟨fn, [(0, file)]⟩ = file := by
      unfold assembleBytes
      have : sortByIdx [(0, file)] = [(0, file)] := rfl
      rw [this]
      simp
    simp only [complete, if_neg hne', hby]

/-- Claim C6 witness: a 1-byte file with 3-byte chunks uploads as one chunk and
completes to itself. -/
theorem small_file_single_chunk_witness :
    total_chunks ([5] : Bytes).length 3 = 1 ∧
    total_chunks 0 3 = 0 ∧
    run_upload_loop [5] 3 (fun _ _ => true) (some (initiateSession "f".toList))
      = (some ⟨"f".toList, [(0, [5])]⟩, [0], none) ∧
    complete "u".toList (some ⟨"f".toList, [(0, [5])]⟩)
      = .ok ({ final_name := finalName "u".toList ⟨"f".toList, [(0, [5])]⟩
             , final_bytes := [5] }, none) :=
  small_file_single_chunk [5] 3 "f".toList "u".toList (by decide) (by decide)

/-- Claim C7: the retry schedule is exactly [1, 2, 5, 10]; a chunk whose transport
fails on every attempt makes exactly the schedule's length of attempts (and in
general never more), sleeps the full increasing backoff schedule, and the run
then aborts at that index: the server state is untouched, nothing is recorded
as sent, and no later index is attempted — the failed index is not skipped. -/
theorem retry_exhaustion_aborts
    (file : Bytes) (cs : Nat) (outcome : Nat → Nat → Bool)
    (U rest : List Nat) (idx : Nat) (d : Option Session)
    (hnot : idx ∉ U) (hdata : fileChunk file cs idx ≠ [])
    (hfail : ∀ k, outcome idx k = false) :
    RETRY_BACKOFF = [1, 2, 5, 10] ∧
    retryPut (outcome idx) d idx (fileChunk file cs idx) RETRY_BACKOFF 0
      = (none, RETRY_BACKOFF.length, RETRY_BACKOFF) ∧
    (∀ (oc : Nat → Bool) (d' : Option Session) (data : Bytes),
       (retryPut oc d' idx data RETRY_BACKOFF 0).2.1 ≤ RETRY_BACKOFF.length) ∧
    uploadLoopF file cs outcome U (idx :: rest) d = (d, [], some idx) := by
  have hrp : retryPut (outcome idx) d idx (fileChunk file cs idx) RETRY_BACKOFF 0
      = (none, RETRY_BACKOFF.length, RETRY_BACKOFF) := by
    have := retryPut_all_fail (outcome idx) d idx (fileChunk file cs idx) hfail
      RETRY_BACKOFF 0
    rw [this]
    rfl
  refine ⟨rfl, hrp, ?_, ?_⟩
  · intro oc d' data
    have := retryPut_attempts_le oc d' idx data RETRY_BACKOFF 0
    omega
  · simp only [uploadLoopF, if_neg hnot, if_neg hdata, hrp]

/-- Claim C7 witness: a 1-byte file, index 0 always failing: four attempts, the full
backoff schedule, and an abort at index 0 leaving the session untouched. -/
theorem retry_exhaustion_aborts_witness :
    RETRY_BACKOFF = [1, 2, 5, 10] ∧
    retryPut ((fun _ _ => false) 0) (some (initiateSession "f".toList)) 0
        (fileChunk [9] 1 0) RETRY_BACKOFF 0
      = (none, RETRY_BACKOFF.length, RETRY_BACKOFF) ∧
    (∀ (oc : Nat → Bool) (d' : Option Session) (data : Bytes),
       (retryPut oc d' 0 data RETRY_BACKOFF 0).2.1 ≤ RETRY_BACKOFF.length) ∧
    uploadLoopF [9] 1 (fun _ _ => false) [] [0, 1] (some (initiateSession "f".toList))
      = (some (initiateSession "f".toList), [], some 0) :=
  retry_exhaustion_aborts [9] 1 (fun _ _ => false) [] [1] 0
    (some (initiateSession "f".toList)) (by decide) (by decide) (fun _ => rfl)

/-- Claim C8 counterexample: a session with chunks [1] and [2]; an assembly that
fails after copying one chunk leaves the partial artifact [1] observable at the
final artifact path (the write goes directly to the final name, with no
temporary location). -/
theorem mid_assembly_partial_visible_cex :
    assembleWrite ⟨"f".toList, [(0, [1]), (1, [2])]⟩ (some 1) = (some [1], false) := rfl

/-- Claim C8 amended: the assembly loop writes at the final artifact path itself, so
a failure after any k of the chunk copies reports an error but leaves a file at
the final location holding the first k chunks — a proper prefix of the full
artifact, observable despite the failure. -/
theorem assembleWrite_failure_leaves_partial
    (s : Session) (k : Nat) (hk : k < (sortByIdx s.chunks).length) :
    ∃ b tail, assembleWrite s (some k) = (some b, false) ∧
      b ++ tail = assembleBytes s ∧
      b = (((sortByIdx s.chunks).map Prod.snd).take k).flatten := by
  have hk' : k < ((sortByIdx s.chunks).map Prod.snd).length := by
    simpa using hk
  refine ⟨(((sortByIdx s.chunks).map Prod.snd).take k).flatten,
    (((sortByIdx s.chunks).map Prod.snd).drop k).flatten, ?_, ?_, rfl⟩
  · simp only [assembleWrite]
    rw [if_pos hk']
  · rw [← List.flatten_append, List.take_append_drop]
    rfl

/-- Claim C8 amended witness. -/
theorem assembleWrite_failure_leaves_partial_witness :
    ∃ b tail,
      assembleWrite ⟨"f".toList, [(0, [1]), (1, [2])]⟩ (some 1) = (some b, false) ∧
      b ++ tail = assembleBytes ⟨"f".toList, [(0, [1]), (1, [2])]⟩ ∧
      b = (((sortByIdx ([(0, [1]), (1, [2])] : List (Nat × Bytes))).map
            Prod.snd).take 1).flatten :=
  assembleWrite_failure_leaves_partial ⟨"f".toList, [(0, [1]), (1, [2])]⟩ 1 (by decide)

/-- Claim C9 counterexample: loading a corrupt progress file raises (the JSON decode
exception is not caught), which is not the treated-as-absent behaviour the
spec's `load` contract prescribes, and it aborts the run instead of starting
fresh. -/
theorem corrupt_meta_fatal_cex :
    load_meta .corrupt = .error () ∧
    load_meta .corrupt ≠ .ok (load_spec .corrupt) ∧
    runMetaPhase .corrupt "a".toList "b".toList 1 = .error () := by
  refine ⟨rfl, ?_, rfl⟩
  intro h
  simp [load_meta, load_spec] at h

/-- Claim C9 amended: only a missing progress file is treated as no record (the run
then starts a fresh session); an undecodable progress file raises a decode
exception that propagates out of the run — corruption is fatal, not treated as
absence — while a valid record loads normally. -/
theorem load_meta_absent_vs_corrupt (m : Meta) (md5 sid : List Char) (scs : Nat) :
    runMetaPhase .absent md5 sid scs
      = .ok { upload_id := sid, chunk_size := scs
            , removed_old := false, initiated := true } ∧
    runMetaPhase .corrupt md5 sid scs = .error () ∧
    load_meta (.valid m) = .ok (some m) := by
  refine ⟨?_, rfl, rfl⟩
  simp [runMetaPhase, load_meta, chooseSession]

/-- Claim C10 counterexample: a run against an unknown session id (server state
`none`, e.g. wiped storage): the status 404 is indeed converted to the empty
accepted set, but the run does not re-send every chunk — the first chunk put
also gets a 404, all retries fail, and the run aborts at index 0 with nothing
sent. -/
theorem unknown_session_run_fails_cex :
    get_uploaded_chunks none = [] ∧
    run_upload_loop [7] 1 (fun _ _ => true) none = (none, [], some 0) :=
  ⟨rfl, rfl⟩

/-- Claim C10 amended: the client converts a 404 status answer into the empty
accepted set — indistinguishable from a known session with zero accepted
chunks — and a resumed run whose checksum matches keeps the old session id
without initiating a new session; but every chunk put to an unknown session is
answered 404, so such a run aborts at the first missing index (index 0) having
sent nothing, rather than re-sending every chunk. -/
theorem unknown_session_resume
    (file : Bytes) (cs : Nat) (fn sid : List Char) (m : Meta) (scs : Nat)
    (outcome : Nat → Nat → Bool)
    (hne : file ≠ []) (hcs : 0 < cs) :
    get_uploaded_chunks none = [] ∧
    get_uploaded_chunks (some (initiateSession fn)) = [] ∧
    chooseSession (some m) m.file_md5 sid scs
      = { upload_id := m.upload_id, chunk_size := m.chunk_size
        , removed_old := false, initiated := false } ∧
    run_upload_loop file cs outcome none = (none, [], some 0) := by
  refine ⟨rfl, rfl, by simp [chooseSession], ?_⟩
  have hlen : 0 < file.length := List.length_pos.mpr hne
  have hnpos : 0 < total_chunks file.length cs := total_chunks_pos hcs hlen
  obtain ⟨t, ht⟩ : ∃ t, total_chunks file.length cs = t + 1 :=
    ⟨total_chunks file.length cs - 1, by omega⟩
  have hchunk0 : fileChunk file cs 0 ≠ [] := fileChunk_ne_nil hcs hnpos
  have hrp : retryPut (outcome 0) none 0 (fileChunk file cs 0) RETRY_BACKOFF 0
      = (none, 0 + RETRY_BACKOFF.length, RETRY_BACKOFF) :=
    retryPut_none_state (outcome 0) 0 (fileChunk file cs 0) RETRY_BACKOFF 0
  rw [run_upload_loop, ht, List.range_succ_eq_map]
  have hU : get_uploaded_chunks none = [] := rfl
  rw [hU]
  simp only [uploadLoopF, List.not_mem_nil, if_neg (fun h => h), if_neg hchunk0, hrp]

/-- Claim C10 amended witness: 1-byte file, 1-byte chunks, reliable transport, yet
the run against an unknown session aborts at index 0. -/
theorem unknown_session_resume_witness :
    get_uploaded_chunks none = [] ∧
    get_uploaded_chunks (some (initiateSession "f".toList)) = [] ∧
    chooseSession (some ⟨"old".toList, 4, 9, "f".toList, "aaa".toList⟩)
        "aaa".toList "new".toList 7
      = { upload_id := "old".toList, chunk_size := 4
        , removed_old := false, initiated := false } ∧
    run_upload_loop [7] 1 (fun _ _ => true) none = (none, [], some 0) :=
  unknown_session_resume [7] 1 "f".toList "new".toList
    ⟨"old".toList, 4, 9, "f".toList, "aaa".toList⟩ 7 (fun _ _ => true)
    (by decide) (by decide)
